import Mathlib

/-!
Shallow embedding of the Mobile-300-Baud-APRS encoder (src/Main.py).

The source is a Python program that builds a simplified AX.25 frame from
callsigns and an information string, differentially encodes its bits, turns
the bits into phase-continuous AFSK audio, normalizes and high-pass filters
the audio, and writes it as a WAV file.

Modelling conventions:
  * Python byte values and characters are `Nat` (character = Unicode code point);
    byte sequences and strings are `List Nat`.
  * Audio samples are `Int` (Python ints produced by `int(...)` truncation).
  * Python float arithmetic is idealized as exact real arithmetic over `ℝ`;
    `int(x)` on a float is truncation toward zero (`rtrunc`), and the float
    `%` operator with a positive divisor is `rmod` (floor-based remainder).
  * Operations that can raise a Python exception return `Option` (`none` is
    the raising outcome).
-/

/-- Constant from Main.py line 9. -/
def SAMPLE_RATE : ℕ := 96000

/-- Constant from Main.py line 10. -/
def BAUD_RATE : ℕ := 300

/-- Constant from Main.py line 11. -/
def MARK_TONE : ℕ := 1800

/-- Constant from Main.py line 12. -/
def SPACE_TONE : ℕ := 1600

/-- Constant from Main.py line 13: SAMPLE_RATE // BAUD_RATE = 320. -/
def DURATION_PER_BIT : ℕ := SAMPLE_RATE / BAUD_RATE

/-- Constant from Main.py line 14. -/
def FLAG : ℕ := 0x7E

/-- Constant from Main.py line 15. -/
def POLY : ℕ := 0x8408

/-- Constant from Main.py line 16. -/
def PREAMBLE_LENGTH : ℕ := 32

/-- Truncation toward zero of a real number, the behaviour of Python `int()`
on a float. -/
noncomputable def rtrunc (x : ℝ) : ℤ := if 0 ≤ x then ⌊x⌋ else ⌈x⌉

/-- Python float `%` with positive divisor: `x - y * ⌊x / y⌋` (the result has
the sign of the divisor). -/
noncomputable def rmod (x y : ℝ) : ℝ := x - y * ⌊x / y⌋

/-- One inner-loop iteration of `crc16_ccitt` (Main.py lines 53-57):
if the low bit of the register is set, shift right and xor with POLY,
else just shift right. -/
def crcBitStep (crc : ℕ) : ℕ := if crc &&& 1 = 1 then (crc >>> 1) ^^^ POLY else crc >>> 1

/-- Per-byte step of `crc16_ccitt` (Main.py lines 52-57): xor the byte into
the register, then run the bit step eight times. -/
def crcByteStep (crc byte : ℕ) : ℕ := crcBitStep^[8] (crc ^^^ byte)

/-- Main.py lines 49-58: reflected CRC-16, register initialized to 0xFFFF,
final xor with 0xFFFF. -/
def crc16_ccitt (data : List ℕ) : ℕ := (data.foldl crcByteStep 0xFFFF) ^^^ 0xFFFF

/-- Python `str.upper()` on one character, modelled on the ASCII range only,
where it agrees with the full Unicode mapping (codes 97-122 map to 65-90,
every other ASCII code is unchanged).  Python's full Unicode mapping is NOT
modelled: it can send a non-ASCII code point into the ASCII range (U+0131
upper-cases to ASCII I) or expand one character into several (U+00DF
upper-cases to SS).  Theorems about callsign handling are therefore stated
either for ASCII characters, where this model is faithful, or for facts
that do not depend on the upper-case mapping at all. -/
def toUpper (c : ℕ) : ℕ := if 97 ≤ c ∧ c ≤ 122 then c - 32 else c

/-- Main.py lines 29-33 (`encode_callsign`): the callsign is left-justified
with spaces to six characters, truncated to six characters, upper-cased; each
character is encoded as its code shifted left one bit, and a seventh byte
`(ssid <<< 1) ||| 0x60` is appended.  The Python `bytearray` constructor and
`append` raise ValueError when a value exceeds 255; that outcome is `none`.
Because `toUpper` models `str.upper()` only on the ASCII range, this
definition is faithful to the source when the kept characters are ASCII;
for a kept non-ASCII character the real `str.upper()` can map into the
ASCII range or expand a character (yielding success, and possibly more than
seven bytes, where this model fails), so no theorem below infers a real
failure from a kept non-ASCII character. -/
def encode_callsign (callsign : List ℕ) (ssid : ℕ) : Option (List ℕ) :=
  let kept := ((callsign ++ List.replicate (6 - callsign.length) 32).take 6).map toUpper
  let shifted := kept.map (fun c => c <<< 1)
  let ssidByte := (ssid <<< 1) ||| 0x60
  if (∀ b ∈ shifted, b ≤ 255) ∧ ssidByte ≤ 255 then some (shifted ++ [ssidByte]) else none

/-- Main.py lines 39-40: encode each digipeater-path callsign in order with
SSID 0 and concatenate the address bytes. -/
def encodePath : List (List ℕ) → Option (List ℕ)
  | [] => some []
  | cs :: rest =>
    match encode_callsign cs 0, encodePath rest with
    | some e, some r => some (e ++ r)
    | _, _ => none

/-- Main.py line 41 (`frame[-1] |= 0x01`): or the last element of the list
with 1.  The source applies it to a provably non-empty list, so the empty
case is unreachable. -/
def orLast : List ℕ → List ℕ
  | [] => []
  | [a] => [a ||| 1]
  | a :: b :: rest => a :: orLast (b :: rest)

/-- Main.py lines 35-47 (`ax25_frame`): destination address, source address,
path addresses (all with SSID 0), end-of-address bit on the last address
byte, control byte 0x03 and PID byte 0xF0, ASCII information bytes (a
non-ASCII character makes `info.encode` raise, modelled as `none`), CRC16
appended little-endian, and the result wrapped in PREAMBLE_LENGTH leading
FLAG bytes and one trailing FLAG byte. -/
def ax25_frame (source destination : List ℕ) (path : List (List ℕ)) (info : List ℕ) :
    Option (List ℕ) :=
  match encode_callsign destination 0, encode_callsign source 0, encodePath path with
  | some d, some s, some p =>
    if ∀ c ∈ info, c ≤ 127 then
      let addrs := orLast (d ++ s ++ p)
      let frame := addrs ++ [0x03, 0xF0] ++ info
      let crc := crc16_ccitt frame
      some (List.replicate PREAMBLE_LENGTH FLAG ++ (frame ++ [crc % 256, crc / 256]) ++ [FLAG])
    else none
  | _, _, _ => none

/-- Inner loop of `generate_bitstream` (Main.py lines 113-117) over bit
indices `i, i+1, ..., i+fuel-1` of one byte: extract the bit, flip the
running state when the bit is 0, and emit the running state. Returns the
final running state together with the emitted bits. -/
def bitRun (byte : ℕ) : ℕ → ℕ → ℕ → ℕ × List ℕ
  | _, 0, prev => (prev, [])
  | i, fuel + 1, prev =>
    let bit := (byte >>> i) &&& 1
    let p := if bit = 0 then prev ^^^ 1 else prev
    let r := bitRun byte (i + 1) fuel p
    (r.1, p :: r.2)

/-- Main.py lines 113-117: the eight LSB-first bits of one byte. -/
def byteLoop (prev byte : ℕ) : ℕ × List ℕ := bitRun byte 0 8 prev

/-- Main.py lines 112-117: the byte loop of `generate_bitstream`, threading
the running state through the packet bytes. -/
def packetLoop : ℕ → List ℕ → ℕ × List ℕ
  | prev, [] => (prev, [])
  | prev, b :: rest =>
    let r := byteLoop prev b
    let r2 := packetLoop r.1 rest
    (r2.1, r.2 ++ r2.2)

/-- Main.py lines 106-120 (`generate_bitstream`): PREAMBLE_LENGTH sync pairs
0,1, then the differentially encoded packet bits with running state starting
at 1, then a trailing 0,1 pair. -/
def generate_bitstream (packet : List ℕ) : List ℕ :=
  (List.replicate PREAMBLE_LENGTH [0, 1]).flatten ++ (packetLoop 1 packet).2 ++ [0, 1]

/-- Modelled from the spec (section 4.5 and design note on the differential
state, for claim C4): the pure differential step `(state, bit) ->
(new_state, output_bit)`; a 0 input bit flips the state, a 1 input bit
leaves it unchanged, and the resulting state is the emitted bit. -/
def diffStep (s bit : ℕ) : ℕ × ℕ :=
  (if bit = 0 then s ^^^ 1 else s, if bit = 0 then s ^^^ 1 else s)

/-- Modelled from the spec (for claim C4): fold of `diffStep` over a bit
list, returning the final state and the emitted bits. -/
def diffFold : ℕ → List ℕ → ℕ × List ℕ
  | s, [] => (s, [])
  | s, b :: rest =>
    let st := diffStep s b
    let r := diffFold st.1 rest
    (r.1, st.2 :: r.2)

/-- Modelled from the spec (for claim C4): the LSB-first bit expansion of a
byte. -/
def lsbBits (b : ℕ) : List ℕ := (List.range 8).map (fun i => (b >>> i) &&& 1)

/-- Maximum absolute sample value of a buffer, Python
`max(abs(sample) for sample in audio)` on a non-empty buffer (on an empty
buffer Python `max` raises; callers of this definition handle that case
separately). -/
def maxAbs (audio : List ℤ) : ℕ := audio.foldl (fun a s => max a s.natAbs) 0

/-- One sample of the normalization step, Main.py line 102:
`int(sample * (32767 / max_amplitude))` under exact rational arithmetic,
i.e. truncation toward zero of `s * 32767 / m`. -/
def rescaleSample (m : ℕ) (s : ℤ) : ℤ := (s * 32767).tdiv m

/-- Main.py lines 100-102, the normalization step of `afsk_encode`: compute
the maximum absolute sample value (Python `max` raises ValueError on an
empty buffer, modelled as `none`), and if it is positive rescale every
sample by 32767 / max. -/
def normalizeAudio (audio : List ℤ) : Option (List ℤ) :=
  match audio with
  | [] => none
  | _ :: _ =>
    let m := maxAbs audio
    if 0 < m then some (audio.map (rescaleSample m)) else some audio

/-- Filter coefficient of `highpass_filter` (Main.py lines 19-20):
`RC = 1 / (cutoff * 2 * pi)`, `alpha = RC / (RC + 1 / SAMPLE_RATE)`. -/
noncomputable def hpAlpha (cutoff : ℝ) : ℝ :=
  (1 / (cutoff * 2 * Real.pi)) / (1 / (cutoff * 2 * Real.pi) + 1 / (SAMPLE_RATE : ℝ))

/-- Loop of `highpass_filter` (Main.py lines 23-26): `prev` is the previous
raw input sample (initially 0.0), `prevOut` the previous emitted output (if
any; the current raw sample stands in for it on the first iteration), and
each output is `int(alpha * (prev + x - prevOut))`. -/
noncomputable def highpassGo (alpha : ℝ) : ℝ → Option ℤ → List ℤ → List ℤ
  | _, _, [] => []
  | prev, prevOut, x :: rest =>
    let y := rtrunc (alpha * (prev + (x : ℝ) -
      (match prevOut with
       | some y0 => (y0 : ℝ)
       | none => (x : ℝ))))
    y :: highpassGo alpha (x : ℝ) (some y) rest

/-- Main.py lines 18-27 (`highpass_filter`). -/
noncomputable def highpass_filter (data : List ℤ) (cutoff : ℝ) : List ℤ :=
  highpassGo (hpAlpha cutoff) 0 none data

/-- Main.py lines 74-80 (`generate_continuous_tone`): the tone samples
`int(amplitude * 32767 * sin(2 pi f t / SAMPLE_RATE + phase))` for
`t = 0 .. samples-1`, together with the updated phase
`phase + ((2 pi f samples / SAMPLE_RATE) mod 2 pi)`. -/
noncomputable def generate_continuous_tone (frequency : ℝ) (samples : ℕ) (phase : ℝ)
    (amplitude : ℝ) : List ℤ × ℝ :=
  ((List.range samples).map (fun (t : ℕ) =>
      rtrunc (amplitude * 32767 *
        Real.sin (2 * Real.pi * frequency * (t : ℝ) / (SAMPLE_RATE : ℝ) + phase))),
   phase + rmod (2 * Real.pi * frequency * (samples : ℝ) / (SAMPLE_RATE : ℝ)) (2 * Real.pi))

/-- Main.py lines 82-104 (`afsk_encode`): synthesize one tone run per bit
(MARK_TONE for 1, SPACE_TONE for 0, DURATION_PER_BIT samples each, phase
carried between runs, amplitude 0.02), then normalize and high-pass filter.
The `current_tone` variable of the source is tracked but never read in a way
that affects the output, so it is not modelled. -/
noncomputable def afsk_encode (packet : List ℕ) : Option (List ℤ) :=
  let bits := generate_bitstream packet
  let audio := (bits.foldl (fun (st : List ℤ × ℝ) bit =>
    let f : ℕ := if bit = 1 then MARK_TONE else SPACE_TONE
    let r := generate_continuous_tone (f : ℝ) DURATION_PER_BIT st.2 (2 / 100)
    (st.1 ++ r.1, r.2)) ([], 0)).1
  (normalizeAudio audio).map (fun a => highpass_filter a 350)

/-- Modelled from the spec (section 4.1, for claim C2): one bit iteration of
the reflected CRC-16/X-25 algorithm written with arithmetic operations: if
the register's low bit is 1, shift right and xor with 0x8408, else just
shift right. -/
def x25BitStep (crc : ℕ) : ℕ := if crc % 2 = 1 then (crc / 2) ^^^ 0x8408 else crc / 2

/-- Modelled from the spec (for claim C2): run `x25BitStep` a given number
of times. -/
def x25Rounds : ℕ → ℕ → ℕ
  | crc, 0 => crc
  | crc, n + 1 => x25Rounds (x25BitStep crc) n

/-- Modelled from the spec (section 4.1, for claim C2): reflected CRC-16
with polynomial 0x8408, initial register 0xFFFF, byte xored in, eight bit
iterations per byte, final xor with 0xFFFF. -/
def crc16_x25_spec (data : List ℕ) : ℕ :=
  (data.foldl (fun crc byte => x25Rounds (crc ^^^ byte) 8) 0xFFFF) ^^^ 0xFFFF

theorem crcBitStep_eq_x25BitStep (crc : ℕ) : crcBitStep crc = x25BitStep crc := by
  rw [crcBitStep, x25BitStep, Nat.and_one_is_mod, Nat.shiftRight_one, POLY]

theorem crcBitStep_iterate_eq_x25Rounds (n : ℕ) :
    ∀ crc : ℕ, crcBitStep^[n] crc = x25Rounds crc n := by
  induction n with
  | zero => intro crc; rfl
  | succ k ih =>
    intro crc
    rw [Function.iterate_succ_apply, ih, crcBitStep_eq_x25BitStep, x25Rounds]

/-- Claim C2: `crc16_ccitt` implements the reflected CRC-16/X-25 algorithm
described in the spec (init 0xFFFF, polynomial 0x8408, LSB-first bit
processing, final xor 0xFFFF), and on the ASCII bytes of the digit string
1 to 9 it returns the published CRC-16/X-25 check value 0x906E. -/
theorem crc16_ccitt_x25_check :
    (∀ data : List ℕ, crc16_ccitt data = crc16_x25_spec data) ∧
      crc16_ccitt [49, 50, 51, 52, 53, 54, 55, 56, 57] = 0x906E := by
  constructor
  · intro data
    rw [crc16_ccitt, crc16_x25_spec]
    have h : crcByteStep = fun crc byte => x25Rounds (crc ^^^ byte) 8 := by
      funext crc byte
      rw [crcByteStep, crcBitStep_iterate_eq_x25Rounds]
    rw [h]
  · set_option maxRecDepth 10000 in decide

theorem bitRun_eq_diffFold (byte : ℕ) :
    ∀ fuel i prev : ℕ,
      bitRun byte i fuel prev =
        diffFold prev ((List.range' i fuel).map (fun j => (byte >>> j) &&& 1)) := by
  intro fuel
  induction fuel with
  | zero => intro i prev; rfl
  | succ k ih =>
    intro i prev
    rw [List.range'_succ]
    simp only [List.map_cons, bitRun, diffFold, diffStep, ih]

theorem byteLoop_eq_diffFold (prev byte : ℕ) :
    byteLoop prev byte = diffFold prev (lsbBits byte) := by
  rw [byteLoop, bitRun_eq_diffFold, lsbBits, List.range_eq_range']

theorem diffFold_append (ys : List ℕ) :
    ∀ (xs : List ℕ) (s : ℕ),
      diffFold s (xs ++ ys) =
        ((diffFold (diffFold s xs).1 ys).1, (diffFold s xs).2 ++ (diffFold (diffFold s xs).1 ys).2) := by
  intro xs
  induction xs with
  | nil => intro s; simp [diffFold]
  | cons b rest ih =>
    intro s
    simp only [List.cons_append, diffFold, List.append_eq, ih]

theorem packetLoop_eq_diffFold :
    ∀ (p : List ℕ) (s : ℕ), packetLoop s p = diffFold s (p.flatMap lsbBits) := by
  intro p
  induction p with
  | nil => intro s; rfl
  | cons b rest ih =>
    intro s
    rw [List.flatMap_cons]
    simp only [packetLoop, byteLoop_eq_diffFold, ih, diffFold_append]

/-- Claim C4: `generate_bitstream` emits, between the preamble pairs and the
trailing pair, exactly the fold of the pure differential step (state starts
at 1; a 0 input bit flips the state, a 1 input bit leaves it unchanged; the
resulting state is the emitted bit) over the LSB-first bit expansion of the
packet bytes. -/
theorem generate_bitstream_differential (packet : List ℕ) :
    generate_bitstream packet =
      (List.replicate PREAMBLE_LENGTH [0, 1]).flatten ++
        (diffFold 1 (packet.flatMap lsbBits)).2 ++ [0, 1] := by
  rw [generate_bitstream, packetLoop_eq_diffFold]

theorem bitRun_length (byte : ℕ) :
    ∀ fuel i prev : ℕ, (bitRun byte i fuel prev).2.length = fuel := by
  intro fuel
  induction fuel with
  | zero => intro i prev; rfl
  | succ k ih => intro i prev; simp only [bitRun, List.length_cons, ih]

theorem packetLoop_length :
    ∀ (p : List ℕ) (s : ℕ), (packetLoop s p).2.length = 8 * p.length := by
  intro p
  induction p with
  | nil => intro s; rfl
  | cons b rest ih =>
    intro s
    simp only [packetLoop, List.length_append, byteLoop, bitRun_length, ih, List.length_cons]
    ring

/-- Claim C5: for every non-empty packet, the bitstream length is
2 * PREAMBLE_LENGTH + 8 * (number of packet bytes) + 2. -/
theorem generate_bitstream_length (packet : List ℕ) (h : packet ≠ []) :
    (generate_bitstream packet).length = 2 * PREAMBLE_LENGTH + 8 * packet.length + 2 := by
  have hpre : ((List.replicate 32 ([0, 1] : List ℕ)).flatten).length = 64 := by
    decide
  simp only [generate_bitstream, List.length_append, hpre, packetLoop_length,
    List.length_cons, List.length_nil, PREAMBLE_LENGTH]

/-- Witness for claim C5 at the concrete one-byte packet 0. -/
theorem generate_bitstream_length_witness :
    ([(0 : ℕ)] ≠ []) ∧
      (generate_bitstream [0]).length = 2 * PREAMBLE_LENGTH + 8 * [(0 : ℕ)].length + 2 :=
  ⟨by decide, generate_bitstream_length [0] (by decide)⟩

theorem getD_mem_of_lt {l : List ℕ} {n : ℕ} (d : ℕ) (h : n < l.length) : l.getD n d ∈ l := by
  rw [List.getD_eq_getElem l d h]
  exact List.getElem_mem h

theorem encode_callsign_zero_spec (cs e : List ℕ) (h : encode_callsign cs 0 = some e) :
    e.length = 7 ∧ (∀ x ∈ e, x % 2 = 0) ∧ e.getLast? = some 96 := by
  simp only [encode_callsign] at h
  split at h
  · rw [Option.some.injEq] at h
    subst h
    refine ⟨?_, ?_, ?_⟩
    · simp only [List.length_append, List.length_map, List.length_take, List.length_replicate,
        List.length_cons, List.length_nil]
      omega
    · intro x hx
      rcases List.mem_append.mp hx with hx | hx
      · rcases List.mem_map.mp hx with ⟨c, _, rfl⟩
        rw [Nat.shiftLeft_eq, pow_one]
        exact Nat.mul_mod_left c 2
      · rcases List.mem_singleton.mp hx with rfl
        decide
    · rw [List.getLast?_concat]
      decide
  · exact absurd h (by simp)

theorem encodePath_spec :
    ∀ (path : List (List ℕ)) (pp : List ℕ), encodePath path = some pp →
      pp.length = 7 * path.length ∧ (∀ x ∈ pp, x % 2 = 0) ∧
        (pp = [] ∨ pp.getLast? = some 96) := by
  intro path
  induction path with
  | nil =>
    intro pp h
    rw [encodePath, Option.some.injEq] at h
    subst h
    exact ⟨rfl, by simp, Or.inl rfl⟩
  | cons cs rest ih =>
    intro pp h
    rw [encodePath] at h
    cases he : encode_callsign cs 0 with
    | none => rw [he] at h; exact absurd h (by simp)
    | some e =>
      cases hr : encodePath rest with
      | none => rw [he, hr] at h; exact absurd h (by simp)
      | some r =>
        rw [he, hr, Option.some.injEq] at h
        subst h
        obtain ⟨hel, hee, heg⟩ := encode_callsign_zero_spec cs e he
        obtain ⟨hrl, hre, hrg⟩ := ih r hr
        refine ⟨?_, ?_, ?_⟩
        · simp only [List.length_append, hel, hrl, List.length_cons]
          ring
        · intro x hx
          rcases List.mem_append.mp hx with hx | hx
          · exact hee x hx
          · exact hre x hx
        · rcases hrg with rfl | hrg
          · rw [List.append_nil]
            exact Or.inr heg
          · refine Or.inr ?_
            have hrne : r ≠ [] := by
              intro hcon
              rw [hcon] at hrg
              exact Option.noConfusion hrg
            rw [List.getLast?_append_of_ne_nil e hrne]
            exact hrg

theorem orLast_length : ∀ l : List ℕ, (orLast l).length = l.length
  | [] => rfl
  | [_] => rfl
  | a :: b :: rest => by
    rw [orLast, List.length_cons, List.length_cons, orLast_length (b :: rest)]

theorem orLast_getD_lt :
    ∀ (l : List ℕ) (i : ℕ), i + 1 < l.length → (orLast l).getD i 0 = l.getD i 0
  | [], i, h => by simp at h
  | [a], i, h => by simp at h
  | a :: b :: rest, 0, _ => rfl
  | a :: b :: rest, i + 1, h => by
    rw [orLast, List.getD_cons_succ, List.getD_cons_succ]
    refine orLast_getD_lt (b :: rest) i ?_
    simp only [List.length_cons] at h ⊢
    omega

theorem orLast_getD_last :
    ∀ l : List ℕ, l ≠ [] → (orLast l).getD (l.length - 1) 0 = l.getD (l.length - 1) 0 ||| 1
  | [], h => absurd rfl h
  | [_], _ => rfl
  | a :: b :: rest, _ => by
    have hlen : (a :: b :: rest).length - 1 = ((b :: rest).length - 1) + 1 := by
      simp only [List.length_cons]
      omega
    rw [orLast, hlen, List.getD_cons_succ, List.getD_cons_succ]
    exact orLast_getD_last (b :: rest) (by simp)

theorem getD_last_of_getLast? {l : List ℕ} {v : ℕ} (h : l.getLast? = some v) :
    l.getD (l.length - 1) 0 = v := by
  have hne : l ≠ [] := by
    intro hcon
    rw [hcon] at h
    exact Option.noConfusion h
  have hlt : l.length - 1 < l.length := by
    cases l with
    | nil => exact absurd rfl hne
    | cons a t => simp
  rw [List.getD_eq_getElem l 0 hlt]
  rw [List.getLast?_eq_getElem?, List.getElem?_eq_getElem hlt, Option.some.injEq] at h
  exact h

theorem getD_skip_left (pre mid : List ℕ) (i : ℕ) :
    (pre ++ mid).getD (pre.length + i) 0 = mid.getD i 0 := by
  rw [List.getD_append_right pre mid 0 (pre.length + i) (Nat.le_add_right _ _),
    Nat.add_sub_cancel_left]
/-- Claim C3: in every packet built by `ax25_frame`, the address field (the
7 * (2 + path length) bytes following the preamble flags) has its last byte
odd (low bit 1) and every earlier byte even (low bit 0). -/
theorem ax25_frame_address_bits (source destination : List ℕ) (path : List (List ℕ))
    (info : List ℕ) (pkt : List ℕ) (h : ax25_frame source destination path info = some pkt) :
    ∀ i < 7 * (2 + path.length),
      pkt.getD (PREAMBLE_LENGTH + i) 0 % 2 =
        if i = 7 * (2 + path.length) - 1 then 1 else 0 := by
  rw [ax25_frame] at h
  split at h
  case h_2 => exact Option.noConfusion h
  rename_i d s p hd hs hp
  split at h
  case isFalse => exact Option.noConfusion h
  rw [Option.some.injEq] at h
  subst h
  obtain ⟨hdl, hde, -⟩ := encode_callsign_zero_spec destination d hd
  obtain ⟨hsl, hse, hsg⟩ := encode_callsign_zero_spec source s hs
  obtain ⟨hpl, hpe, hpg⟩ := encodePath_spec path p hp
  have hsne : s ≠ [] := by
    intro hc
    rw [hc] at hsl
    simp at hsl
  have hA : (d ++ s ++ p).length = 7 * (2 + path.length) := by
    simp only [List.length_append, hdl, hsl, hpl]
    ring
  have hAne : d ++ s ++ p ≠ [] := by
    intro hc
    rw [hc] at hA
    simp at hA
  have hOlen : (orLast (d ++ s ++ p)).length = 7 * (2 + path.length) := by
    rw [orLast_length]
    exact hA
  have heven : ∀ x ∈ d ++ s ++ p, x % 2 = 0 := by
    intro x hx
    rcases List.mem_append.mp hx with hx | hx
    · rcases List.mem_append.mp hx with hx | hx
      · exact hde x hx
      · exact hse x hx
    · exact hpe x hx
  have hlast : (d ++ s ++ p).getLast? = some 96 := by
    rcases hpg with rfl | hpg
    · rw [List.append_nil, List.getLast?_append_of_ne_nil d hsne]
      exact hsg
    · have hpne : p ≠ [] := by
        intro hc
        rw [hc] at hpg
        exact Option.noConfusion hpg
      rw [List.getLast?_append_of_ne_nil (d ++ s) hpne]
      exact hpg
  intro i hi
  have hstep1 :
      (List.replicate PREAMBLE_LENGTH FLAG ++
          ((orLast (d ++ s ++ p) ++ [3, 240] ++ info) ++
            [crc16_ccitt (orLast (d ++ s ++ p) ++ [3, 240] ++ info) % 256,
              crc16_ccitt (orLast (d ++ s ++ p) ++ [3, 240] ++ info) / 256]) ++
          [FLAG]).getD (PREAMBLE_LENGTH + i) 0 =
        (orLast (d ++ s ++ p)).getD i 0 := by
    rw [List.append_assoc (List.replicate PREAMBLE_LENGTH FLAG)]
    have hrep : (List.replicate PREAMBLE_LENGTH FLAG).length = PREAMBLE_LENGTH :=
      List.length_replicate ..
    rw [show PREAMBLE_LENGTH + i = (List.replicate PREAMBLE_LENGTH FLAG).length + i by
      rw [hrep]]
    rw [getD_skip_left]
    rw [List.getD_append _ _ _ _ (by
      simp only [List.length_append, hOlen, List.length_cons, List.length_nil]
      omega)]
    rw [List.getD_append _ _ _ _ (by
      simp only [List.length_append, hOlen, List.length_cons, List.length_nil]
      omega)]
    rw [List.getD_append _ _ _ _ (by
      simp only [List.length_append, hOlen, List.length_cons, List.length_nil]
      omega)]
    rw [List.getD_append _ _ _ _ (by rw [hOlen]; exact hi)]
  rw [hstep1]
  by_cases hcase : i = 7 * (2 + path.length) - 1
  · rw [if_pos hcase]
    have hi' : i = (d ++ s ++ p).length - 1 := by rw [hA]; exact hcase
    rw [hi', orLast_getD_last _ hAne, getD_last_of_getLast? hlast]
    decide
  · rw [if_neg hcase]
    have hlt : i + 1 < (d ++ s ++ p).length := by rw [hA]; omega
    rw [orLast_getD_lt _ i hlt]
    exact heven _ (getD_mem_of_lt 0 (by omega))

set_option maxRecDepth 100000 in
/-- Witness for claim C3: the last address byte (index 13 after the
preamble) of a concrete frame is odd. -/
theorem ax25_frame_address_bits_witness :
    ([126, 126, 126, 126, 126, 126, 126, 126, 126, 126, 126, 126, 126, 126, 126, 126, 126,
        126, 126, 126, 126, 126, 126, 126, 126, 126, 126, 126, 126, 126, 126, 126, 130, 160,
        164, 166, 64, 64, 96, 150, 158, 104, 142, 158, 140, 97, 3, 240, 157, 42,
        126] : List ℕ).getD (PREAMBLE_LENGTH + 13) 0 % 2 =
      if 13 = 7 * (2 + ([] : List (List ℕ)).length) - 1 then 1 else 0 :=
  ax25_frame_address_bits [75, 79, 52, 71, 79, 70] [65, 80, 82, 83] [] []
    [126, 126, 126, 126, 126, 126, 126, 126, 126, 126, 126, 126, 126, 126, 126, 126, 126,
      126, 126, 126, 126, 126, 126, 126, 126, 126, 126, 126, 126, 126, 126, 126, 130, 160,
      164, 166, 64, 64, 96, 150, 158, 104, 142, 158, 140, 97, 3, 240, 157, 42,
      126] (by decide) 13 (by decide)

theorem toUpper_le_127_iff (c : ℕ) : toUpper c ≤ 127 ↔ c ≤ 127 := by
  rw [toUpper]
  split <;> omega

theorem encode_callsign_zero_isSome (cs : List ℕ) :
    (encode_callsign cs 0).isSome = true ↔ ∀ c ∈ cs.take 6, c ≤ 127 := by
  rw [encode_callsign]
  split
  · rename_i h
    simp only [Option.isSome_some, true_iff]
    intro c hc
    have hc6 : c ∈ (cs ++ List.replicate (6 - cs.length) 32).take 6 := by
      rw [List.take_append_eq_append_take]
      exact List.mem_append_left _ hc
    have hb := h.1 (toUpper c <<< 1)
      (List.mem_map.mpr ⟨toUpper c, List.mem_map.mpr ⟨c, hc6, rfl⟩, rfl⟩)
    rw [Nat.shiftLeft_eq, pow_one] at hb
    exact (toUpper_le_127_iff c).mp (by omega)
  · rename_i h
    simp only [Option.isSome_none, Bool.false_eq_true, false_iff]
    intro hall
    apply h
    constructor
    · intro b hb
      rcases List.mem_map.mp hb with ⟨u, hu, rfl⟩
      rcases List.mem_map.mp hu with ⟨c, hc, rfl⟩
      have hc127 : c ≤ 127 := by
        rw [List.take_append_eq_append_take] at hc
        rcases List.mem_append.mp hc with hc | hc
        · exact hall c hc
        · rw [List.take_replicate] at hc
          have := (List.mem_replicate.mp hc).2
          omega
      have := (toUpper_le_127_iff c).mpr hc127
      rw [Nat.shiftLeft_eq, pow_one]
      omega
    · decide

theorem encodePath_isSome (path : List (List ℕ)) :
    (encodePath path).isSome = true ↔ ∀ cs ∈ path, (encode_callsign cs 0).isSome = true := by
  induction path with
  | nil => simp [encodePath]
  | cons cs rest ih =>
    rw [encodePath, List.forall_mem_cons]
    cases he : encode_callsign cs 0 with
    | none => simp [he]
    | some e =>
      cases hr : encodePath rest with
      | none => simp [he, hr, ← ih]
      | some r => simp [he, hr, ← ih]

/-- Success characterization of the modelled `ax25_frame`.  Only its
right-to-left direction (all-ASCII inputs succeed) and its consequence that
a non-ASCII information string forces failure are faithful to the Python
program on all inputs; the left-to-right direction holds for the model but
not for the program, whose full Unicode `str.upper()` lets some non-ASCII
callsign characters succeed. -/
theorem ax25_model_frame_isSome_iff (source destination : List ℕ) (path : List (List ℕ))
    (info : List ℕ) :
    (ax25_frame source destination path info).isSome = true ↔
      ((∀ c ∈ destination.take 6, c ≤ 127) ∧ (∀ c ∈ source.take 6, c ≤ 127) ∧
        (∀ cs ∈ path, ∀ c ∈ cs.take 6, c ≤ 127) ∧ (∀ c ∈ info, c ≤ 127)) := by
  rw [ax25_frame]
  split
  · rename_i d s p hd hs hp
    split
    · rename_i hinfo
      simp only [Option.isSome_some, true_iff]
      refine ⟨?_, ?_, ?_, hinfo⟩
      · exact (encode_callsign_zero_isSome destination).mp (by rw [hd]; rfl)
      · exact (encode_callsign_zero_isSome source).mp (by rw [hs]; rfl)
      · intro cs hcs
        have hps := (encodePath_isSome path).mp (by rw [hp]; rfl)
        exact (encode_callsign_zero_isSome cs).mp (hps cs hcs)
    · rename_i hinfo
      simp only [Option.isSome_none, Bool.false_eq_true, false_iff]
      intro hc
      exact hinfo hc.2.2.2
  · rename_i hfail
    simp only [Option.isSome_none, Bool.false_eq_true, false_iff]
    intro hc
    obtain ⟨h1, h2, h3, -⟩ := hc
    obtain ⟨d, hd⟩ := Option.isSome_iff_exists.mp ((encode_callsign_zero_isSome destination).mpr h1)
    obtain ⟨s, hs⟩ := Option.isSome_iff_exists.mp ((encode_callsign_zero_isSome source).mpr h2)
    obtain ⟨p, hp⟩ := Option.isSome_iff_exists.mp ((encodePath_isSome path).mpr
      (fun cs hcs => (encode_callsign_zero_isSome cs).mpr (h3 cs hcs)))
    exact hfail d s p hd hs hp

theorem pad6_take6 (cs : List ℕ) :
    ((cs.take 6) ++ List.replicate (6 - (cs.take 6).length) 32).take 6 =
      (cs ++ List.replicate (6 - cs.length) 32).take 6 := by
  rw [List.take_append_eq_append_take, List.take_append_eq_append_take,
    List.take_take, List.take_replicate, List.take_replicate, List.length_take]
  congr 2
  omega

theorem encode_callsign_take6 (cs : List ℕ) (ssid : ℕ) :
    encode_callsign (cs.take 6) ssid = encode_callsign cs ssid := by
  rw [encode_callsign, encode_callsign, pad6_take6]

theorem encodePath_take6 (path : List (List ℕ)) :
    encodePath (path.map (fun cs => cs.take 6)) = encodePath path := by
  induction path with
  | nil => rfl
  | cons cs rest ih =>
    rw [List.map_cons, encodePath, encodePath, encode_callsign_take6, ih]

/-- Amended claim C8: frame building fails whenever the information string
contains a non-ASCII character; it succeeds whenever the information string
and the first six characters of every used callsign (destination, source,
each path entry) are ASCII; and the outcome depends only on the first six
characters of each callsign, since later characters are truncated away
before encoding.  Whether a non-ASCII character among a callsign's first
six characters causes failure is not characterized here: it depends on the
full Unicode upper-case mapping of Python `str.upper()`, under which some
non-ASCII characters upper-case into ASCII and do not cause failure. -/
theorem ax25_frame_failure_behaviour (source destination : List ℕ) (path : List (List ℕ))
    (info : List ℕ) :
    ((∀ c ∈ destination.take 6, c ≤ 127) → (∀ c ∈ source.take 6, c ≤ 127) →
        (∀ cs ∈ path, ∀ c ∈ cs.take 6, c ≤ 127) → (∀ c ∈ info, c ≤ 127) →
        (ax25_frame source destination path info).isSome = true) ∧
      ((∃ c ∈ info, ¬ c ≤ 127) → ax25_frame source destination path info = none) ∧
      ax25_frame source destination path info =
        ax25_frame (source.take 6) (destination.take 6)
          (path.map (fun cs => cs.take 6)) info := by
  refine ⟨?_, ?_, ?_⟩
  · intro h1 h2 h3 h4
    exact (ax25_model_frame_isSome_iff source destination path info).mpr ⟨h1, h2, h3, h4⟩
  · rintro ⟨c, hc, hc127⟩
    rw [ax25_frame]
    split
    · exact if_neg (fun hall => hc127 (hall c hc))
    · rfl
  · have hd := (encode_callsign_take6 destination 0).symm
    have hs := (encode_callsign_take6 source 0).symm
    have hp := (encodePath_take6 path).symm
    rw [ax25_frame, ax25_frame, hd, hs, hp]

/-- Witness for the amended claim C8: concrete all-ASCII inputs succeed,
and a concrete non-ASCII information string fails. -/
theorem ax25_frame_failure_behaviour_witness :
    (ax25_frame [75, 79] [65, 80] [[87, 73]] [64]).isSome = true ∧
      ax25_frame [75, 79] [65, 80] [] [200] = none :=
  ⟨(ax25_frame_failure_behaviour [75, 79] [65, 80] [[87, 73]] [64]).1
      (by decide) (by decide) (by decide) (by decide),
    (ax25_frame_failure_behaviour [75, 79] [65, 80] [] [200]).2.1
      ⟨200, by decide, by decide⟩⟩

set_option maxRecDepth 100000 in
/-- Counterexample for claim C8: a seven-character source callsign whose
seventh character is the non-ASCII code 196 contains a non-ASCII character,
yet `ax25_frame` succeeds, because the seventh character is truncated away
before encoding. -/
theorem ax25_frame_nonascii_callsign_counterexample :
    (∃ c ∈ ([65, 65, 65, 65, 65, 65, 196] : List ℕ), ¬ c ≤ 127) ∧
      (ax25_frame [65, 65, 65, 65, 65, 65, 196] [66, 66, 66] [] []).isSome = true := by
  exact ⟨⟨196, by decide, by decide⟩, by decide⟩

theorem maxAbs_foldl_eq_zero_iff :
    ∀ (l : List ℤ) (acc : ℕ),
      l.foldl (fun a s => max a s.natAbs) acc = 0 ↔ (acc = 0 ∧ ∀ s ∈ l, s = 0) := by
  intro l
  induction l with
  | nil => intro acc; simp [List.foldl_nil]
  | cons x t ih =>
    intro acc
    rw [List.foldl_cons, ih, List.forall_mem_cons]
    constructor
    · rintro ⟨hmax, ht⟩
      rw [Nat.max_eq_zero_iff] at hmax
      exact ⟨hmax.1, Int.natAbs_eq_zero.mp hmax.2, ht⟩
    · rintro ⟨hacc, hx, ht⟩
      refine ⟨?_, ht⟩
      rw [Nat.max_eq_zero_iff, Int.natAbs_eq_zero]
      exact ⟨hacc, hx⟩

theorem maxAbs_eq_zero_iff (l : List ℤ) : maxAbs l = 0 ↔ ∀ s ∈ l, s = 0 := by
  rw [maxAbs, maxAbs_foldl_eq_zero_iff]
  simp

/-- Counterexample for claim C7: on an empty sample buffer the
normalization step is not skipped with the buffer returned unchanged; the
Python `max` call raises ValueError (modelled as `none`). -/
theorem normalizeAudio_empty_counterexample : normalizeAudio [] ≠ some [] := by decide

/-- Amended claim C7: for a non-empty buffer, normalization returns the
buffer unchanged when every sample is zero, and otherwise rescales every
sample by 32767 / max_abs (truncated toward zero); on an empty buffer the
maximum computation raises instead of skipping the step. -/
theorem normalizeAudio_amended (audio : List ℤ) (h : audio ≠ []) :
    ((∀ s ∈ audio, s = 0) → normalizeAudio audio = some audio) ∧
      (0 < maxAbs audio → normalizeAudio audio = some (audio.map (rescaleSample (maxAbs audio)))) := by
  cases audio with
  | nil => exact absurd rfl h
  | cons a t =>
    constructor
    · intro hz
      have hm : maxAbs (a :: t) = 0 := (maxAbs_eq_zero_iff _).mpr hz
      simp only [normalizeAudio, hm]
      norm_num
    · intro hpos
      simp only [normalizeAudio, if_pos hpos]

/-- Witness for the amended claim C7 at the concrete buffer [3]. -/
theorem normalizeAudio_amended_witness : normalizeAudio [3] = some [32767] := by
  have h := (normalizeAudio_amended [3] (by decide)).2 (by decide)
  rw [h]
  decide

/-- Claim C9: normalization of a buffer whose maximum absolute sample is
already 32767 leaves every sample unchanged. -/
theorem normalizeAudio_idempotent (audio : List ℤ) (h : maxAbs audio = 32767) :
    normalizeAudio audio = some audio := by
  cases audio with
  | nil => exact absurd h (by decide)
  | cons a t =>
    simp only [normalizeAudio, h]
    rw [if_pos (by norm_num)]
    have hmap : rescaleSample 32767 = fun s : ℤ => s := by
      funext s
      rw [rescaleSample]
      have : ((32767 : ℕ) : ℤ) = 32767 := by norm_num
      rw [this]
      exact Int.mul_tdiv_cancel s (by norm_num)
    rw [hmap]
    simp

/-- Witness for claim C9 at the concrete buffer [32767]. -/
theorem normalizeAudio_idempotent_witness :
    maxAbs [(32767 : ℤ)] = 32767 ∧ normalizeAudio [(32767 : ℤ)] = some [32767] :=
  ⟨by decide, normalizeAudio_idempotent [32767] (by decide)⟩

theorem rmod_nonneg (x y : ℝ) (hy : 0 < y) : 0 ≤ rmod x y := by
  rw [rmod]
  have h := Int.sub_floor_div_mul_nonneg x hy
  linarith

theorem rmod_lt (x y : ℝ) (hy : 0 < y) : rmod x y < y := by
  rw [rmod]
  have h := Int.sub_floor_div_mul_lt x hy
  linarith

/-- Amended claim C1: `generate_continuous_tone` returns its requested
number of samples together with the phase
`p + ((2 pi f n / SAMPLE_RATE) mod 2 pi)`; only the increment is reduced
modulo 2 pi, so the returned phase lies in the interval from p (inclusive)
to p + 2 pi (exclusive), not necessarily in the interval from 0 to 2 pi. -/
theorem generate_continuous_tone_phase (f : ℝ) (n : ℕ) (p a : ℝ) :
    (generate_continuous_tone f n p a).1.length = n ∧
      (generate_continuous_tone f n p a).2 =
        p + rmod (2 * Real.pi * f * (n : ℝ) / ((SAMPLE_RATE : ℕ) : ℝ)) (2 * Real.pi) ∧
      p ≤ (generate_continuous_tone f n p a).2 ∧
      (generate_continuous_tone f n p a).2 < p + 2 * Real.pi := by
  have h2pi : (0 : ℝ) < 2 * Real.pi := by positivity
  have hmod0 := rmod_nonneg (2 * Real.pi * f * (n : ℝ) / ((SAMPLE_RATE : ℕ) : ℝ)) _ h2pi
  have hmod1 := rmod_lt (2 * Real.pi * f * (n : ℝ) / ((SAMPLE_RATE : ℕ) : ℝ)) _ h2pi
  refine ⟨by simp only [generate_continuous_tone, List.length_map, List.length_range], rfl, ?_, ?_⟩
  · show p ≤ p + rmod (2 * Real.pi * f * (n : ℝ) / ((SAMPLE_RATE : ℕ) : ℝ)) (2 * Real.pi)
    linarith
  · show p + rmod (2 * Real.pi * f * (n : ℝ) / ((SAMPLE_RATE : ℕ) : ℝ)) (2 * Real.pi) <
      p + 2 * Real.pi
    linarith

/-- Counterexample for claim C1: at frequency 24000, one sample, starting
phase 6 and the default amplitude, the code returns phase 6 + pi / 2, which
is not smaller than 2 pi, so the returned phase does not lie in the
interval from 0 to 2 pi claimed by the spec. -/
theorem generate_continuous_tone_phase_counterexample :
    (generate_continuous_tone 24000 1 6 (2 / 100)).2 = 6 + Real.pi / 2 ∧
      ¬ (generate_continuous_tone 24000 1 6 (2 / 100)).2 < 2 * Real.pi := by
  have harg : 2 * Real.pi * (24000 : ℝ) * ((1 : ℕ) : ℝ) / ((SAMPLE_RATE : ℕ) : ℝ) =
      Real.pi / 2 := by
    norm_num [SAMPLE_RATE]
    ring
  have hfloor : ⌊Real.pi / 2 / (2 * Real.pi)⌋ = 0 := by
    have hq : Real.pi / 2 / (2 * Real.pi) = 1 / 4 := by
      field_simp
      ring
    rw [hq, Int.floor_eq_zero_iff]
    constructor <;> norm_num
  have hmod : rmod (Real.pi / 2) (2 * Real.pi) = Real.pi / 2 := by
    rw [rmod, hfloor]
    push_cast
    ring
  have h2 : (generate_continuous_tone 24000 1 6 (2 / 100)).2 = 6 + Real.pi / 2 := by
    show (6 : ℝ) + rmod (2 * Real.pi * (24000 : ℝ) * ((1 : ℕ) : ℝ) / ((SAMPLE_RATE : ℕ) : ℝ))
        (2 * Real.pi) = 6 + Real.pi / 2
    rw [harg, hmod]
  refine ⟨h2, ?_⟩
  rw [h2]
  intro hlt
  have hpi4 := Real.pi_le_four
  linarith

theorem highpassGo_length (alpha : ℝ) :
    ∀ (l : List ℤ) (prev : ℝ) (prevOut : Option ℤ),
      (highpassGo alpha prev prevOut l).length = l.length := by
  intro l
  induction l with
  | nil => intro prev prevOut; rfl
  | cons x rest ih =>
    intro prev prevOut
    simp only [highpassGo, List.length_cons, ih]

theorem rtrunc_zero : rtrunc 0 = 0 := by
  rw [rtrunc, if_pos le_rfl, Int.floor_zero]

/-- Claim C10: `highpass_filter` preserves the length of its input, and on
any non-empty input its first output sample is 0, because the previous-input
seed is 0 and the current sample stands in for the missing previous output,
making the first output the truncation of alpha * (0 + x - x) = 0. -/
theorem highpass_filter_length_first (data : List ℤ) (cutoff : ℝ) :
    (highpass_filter data cutoff).length = data.length ∧
      ∀ (x : ℤ) (rest : List ℤ), (highpass_filter (x :: rest) cutoff).head? = some 0 := by
  constructor
  · exact highpassGo_length _ data 0 none
  · intro x rest
    rw [highpass_filter]
    simp only [highpassGo, List.head?_cons]
    have hz : hpAlpha cutoff * ((0 : ℝ) + (x : ℝ) - (x : ℝ)) = 0 := by ring
    rw [hz, rtrunc_zero]
